import Mathlib

/-!
Verification of the catalog browser in `books.py`.

Strings are modeled as lists of characters (`Str`).  Python library
operations used by the program (`str.split`, `str.lower`, the `in`
substring test, `pathlib.Path.stem` / `.suffix` / `.name`) are given
executable Lean definitions mirroring their documented semantics on the
ASCII inputs the program handles.  The filesystem is modeled as a listing
function from a directory path to its immediate entries; `print` output is
collected in logs / event traces; `input()` reads from an explicit script.
-/

set_option maxRecDepth 4000

abbrev Str := List Char

/-- Python `str.lower` for one ASCII character. -/
def pyLower (c : Char) : Char :=
  if 'A' ≤ c ∧ c ≤ 'Z' then Char.ofNat (c.toNat + 32) else c

/-- Python `str.lower`. -/
def lowerStr (s : Str) : Str := s.map pyLower

/-- Whether `pre` is a leading segment of `s` (used for the `in` test). -/
def isPrefixB : Str → Str → Bool
  | [], _ => true
  | _ :: _, [] => false
  | a :: as, b :: bs => a = b && isPrefixB as bs

/-- Python substring test `needle in hay`. -/
def isInfixB (needle : Str) : Str → Bool
  | [] => isPrefixB needle []
  | h :: t => isPrefixB needle (h :: t) || isInfixB needle t

/-- Python `s.split('__')`: split on non-overlapping occurrences of the
    double-underscore separator, scanning left to right. -/
def splitMark : Str → List Str
  | [] => [[]]
  | [c] => [[c]]
  | c1 :: c2 :: rest =>
    if c1 = '_' ∧ c2 = '_' then [] :: splitMark rest
    else
      match splitMark (c2 :: rest) with
      | [] => [[c1]]
      | p :: ps => (c1 :: p) :: ps

/-- Whether the double-underscore separator occurs in `s`. -/
def hasMark : Str → Bool
  | [] => false
  | [_] => false
  | c1 :: c2 :: rest => (c1 = '_' && c2 = '_') || hasMark (c2 :: rest)

/-- Python `s.split(sep)` for a single-character separator. -/
def splitChar (sep : Char) : Str → List Str
  | [] => [[]]
  | c :: rest =>
    if c = sep then [] :: splitChar sep rest
    else
      match splitChar sep rest with
      | [] => [[c]]
      | p :: ps => (c :: p) :: ps

/-- `pathlib.Path(p).name`: the final path component (trailing slashes
    stripped). -/
def pathName (p : Str) : Str :=
  (((p.reverse.dropWhile (fun c => c = '/')).takeWhile (fun c => c ≠ '/')).reverse)

/-- Index of the last `'.'` in a name, if any. -/
def lastDot : Str → Option Nat
  | [] => none
  | c :: rest =>
    match lastDot rest with
    | some i => some (i + 1)
    | none => if c = '.' then some 0 else none

/-- `pathlib.Path(p).stem`: the final component without its extension. -/
def pyStem (p : Str) : Str :=
  let n := pathName p
  match lastDot n with
  | some i => if 0 < i ∧ i < n.length - 1 then n.take i else n
  | none => n

/-- `pathlib.Path(p).suffix`: the extension of the final component. -/
def pySuffix (p : Str) : Str :=
  let n := pathName p
  match lastDot n with
  | some i => if 0 < i ∧ i < n.length - 1 then n.drop i else []
  | none => []

/-- Python `name.replace('_', ' ')`. -/
def replUnders (s : Str) : Str := s.map (fun c => if c = '_' then ' ' else c)

/-- One immediate entry of a directory, as seen by `Path.iterdir`. -/
structure FSEntry where
  name : Str
  isDir : Bool
deriving DecidableEq, Repr

/-- A filesystem: each directory path maps to its immediate entries. -/
abbrev FS := Str → List FSEntry

/-- `str(directory / name)`: path of a child, as `iterdir` yields it. -/
def childPath (root name : Str) : Str := root ++ '/' :: name

/-- The `_NamePath` record: display name, absolute path, optional authors. -/
structure NamePath where
  name : Str
  path : Str
  authors : Option (List Str)
deriving DecidableEq, Repr

/-- `Books.is_dir_hidden`: `str(_dir).startswith('.')` — note this tests
    the string of the whole path, not the directory's own name. -/
def is_dir_hidden (d : Str) : Bool :=
  match d with
  | c :: _ => c = '.'
  | [] => false

/-- `Books._dirs`: immediate children that are directories and not "hidden"
    per `is_dir_hidden`, as full paths in listing order. -/
def dirsOf (root : Str) (entries : List FSEntry) : List Str :=
  (entries.filter (fun e => e.isDir && !is_dir_hidden (childPath root e.name))).map
    (fun e => childPath root e.name)

/-- `Books.is_doc`: the lower-cased extension is an allowed document type. -/
def is_doc (f : Str) : Bool :=
  let ext := lowerStr (pySuffix f)
  ext = ".pdf".data || ext = ".djvu".data || ext = ".epub".data

/-- `Books._files`: immediate children that are files, are documents, and
    whose lower-cased stem contains the search term verbatim
    (the source tests `_search_term in str(i.stem).lower()`). -/
def _files (dir : Str) (entries : List FSEntry) (term : Str) : List Str :=
  ((entries.filter (fun e => e.isDir = false)).map (fun e => childPath dir e.name)).filter
    (fun p => is_doc p && isInfixB term (lowerStr (pyStem p)))

/-- Modelled from the spec: the search predicate as the spec words it —
    `searchTerm` lower-cased must be a substring of the lower-cased stem.
    Kept separate from `_files` to compare the code against the spec. -/
def _files_spec (dir : Str) (entries : List FSEntry) (term : Str) : List Str :=
  ((entries.filter (fun e => e.isDir = false)).map (fun e => childPath dir e.name)).filter
    (fun p => is_doc p && isInfixB (lowerStr term) (lowerStr (pyStem p)))

/-- Python `dict` assignment `d[k] = v`: replace in place or append. -/
def insertAL (k : Str) (v : NamePath) : List (Str × NamePath) → List (Str × NamePath)
  | [] => [(k, v)]
  | (k', v') :: rest => if k' = k then (k, v) :: rest else (k', v') :: insertAL k v rest

/-- Python `d[k]` / `k in d` on the insertion-ordered mapping. -/
def lookupAL (k : Str) : List (Str × NamePath) → Option NamePath
  | [] => none
  | (k', v) :: rest => if k' = k then some v else lookupAL k rest

/-- The diagnostic printed for a directory that fails the split pattern. -/
def fixMsg (d : Str) : Str :=
  "Fix directory ".data ++ d ++ " to match split pattern".data

/-- Loop body of `Books.get_root_dict` for one directory path `d`:
    `_name, key = str(d).split('__')`, display name
    `Path(_name).stem.replace('_', ' ')`, path `d` (already absolute);
    `none` when the split does not give exactly two parts. -/
def rootPair (d : Str) : Option (Str × NamePath) :=
  match splitMark d with
  | [n, key] => some (key, ⟨replUnders (pyStem n), d, none⟩)
  | _ => none

/-- The key `rootPair` would file `d` under, if well formed. -/
def rootKey (d : Str) : Option Str :=
  match splitMark d with
  | [_, key] => some key
  | _ => none

/-- One iteration of the `Books.get_root_dict` loop: insert the parsed
    entry, or record the printed diagnostic and continue. -/
def rootStep (acc : List (Str × NamePath) × List Str) (d : Str) :
    List (Str × NamePath) × List Str :=
  match rootPair d with
  | some (k, v) => (insertAL k v acc.1, acc.2)
  | none => (acc.1, acc.2 ++ [fixMsg d])

/-- `Books.get_root_dict` over the directory paths produced by `_dirs`:
    builds the key → entry mapping, collecting the printed diagnostics. -/
def get_root_dict (ds : List Str) : List (Str × NamePath) × List Str :=
  ds.foldl rootStep ([], [])

/-- Sequential numbering starting at `n` (the `enumerate(..., start=1)`). -/
def numbered : Nat → List Str → List (Nat × Str)
  | _, [] => []
  | n, x :: xs => (n, x) :: numbered (n + 1) xs

/-- The stringified 1-based document key. -/
def natKey (n : Nat) : Str := (toString n).data

/-- Loop body of `Books.get_folder_dict` for document number/file:
    stem split into authors/title, degraded to the whole stem with no
    authors when the split does not give exactly two parts. -/
def folder_entry (number : Nat) (file : Str) : Str × NamePath :=
  let stem := pyStem file
  match splitMark stem with
  | [a, n] =>
    (natKey number,
     ⟨replUnders (pyStem n), file, if a = [] then none else some (splitChar '_' a)⟩)
  | _ => (natKey number, ⟨replUnders (pyStem stem), file, none⟩)

/-- `Books.get_folder_dict` (the file-level "Fix file" diagnostics are not
    traced; they do not interact with any property below). -/
def get_folder_dict (fs : FS) (dir term : Str) : List (Str × NamePath) :=
  (numbered 1 (_files dir (fs dir) term)).foldl
    (fun acc nf => insertAL (folder_entry nf.1 nf.2).1 (folder_entry nf.1 nf.2).2 acc) []

/-- Loop body of `Rtfm.get_folder_dict`: no author split, display name is
    the stem with underscores replaced by spaces. -/
def rtfm_folder_entry (number : Nat) (file : Str) : Str × NamePath :=
  (natKey number, ⟨replUnders (pyStem file), file, none⟩)

/-- `Rtfm.get_folder_dict`. -/
def rtfm_get_folder_dict (fs : FS) (dir term : Str) : List (Str × NamePath) :=
  (numbered 1 (_files dir (fs dir) term)).foldl
    (fun acc nf => insertAL (rtfm_folder_entry nf.1 nf.2).1 (rtfm_folder_entry nf.1 nf.2).2 acc) []

/-- `Books.TEXT_WRAP`. -/
def TEXT_WRAP : Nat := 80

/-- A run of `n` blanks (`' ' * n`). -/
def spacesN (n : Nat) : Str := List.replicate n ' '

/-- `Books._get_spaces_key`: `abs(self._max_key - len(key)) + 1`. -/
def _get_spaces_key (maxKey : Nat) (key : Str) : Nat :=
  ((maxKey : Int) - (key.length : Int)).natAbs + 1

/-- `Books._get_spaces_num`: `abs(self._max_num - len(str(key))) + 1`. -/
def _get_spaces_num (maxNum : Nat) (key : Str) : Nat :=
  ((maxNum : Int) - (key.length : Int)).natAbs + 1

/-- `Books._format_authors`. -/
def _format_authors : Option (List Str) → Str
  | some (a :: as) => List.intercalate ", ".data (a :: as) ++ ".".data
  | _ => "NO_AUTHOR.".data

/-- One line of `Books.print_root`: `f'({k}) {_spaces} {v.name}'`. -/
def print_root_line (maxKey : Nat) (k : Str) (v : NamePath) : Str :=
  "(".data ++ k ++ ") ".data ++ spacesN (_get_spaces_key maxKey k) ++ " ".data ++ v.name

/-- `Books.print_root`: the lines printed for a root catalog.  The running
    maximum key length `_max_key` is passed explicitly. -/
def print_root (maxKey : Nat) (d : List (Str × NamePath)) : List Str :=
  d.map (fun kv => print_root_line maxKey kv.1 kv.2)

/-- `Books._split_text`.  `textwrap.wrap` is taken as a parameter `wrapF`
    (the alignment properties below hold for every wrapping function).
    The first wrapped chunk gets the `f'({k}){_spaces} {i}'` prefix, later
    chunks the all-blank `f'{_len}{_spaces} {i}'` prefix with
    `_len = (len(str(k)) + 2) * ' '`. -/
def _split_text (wrapF : Str → Nat → List Str) (maxNum : Nat) (k : Str) (v : NamePath) :
    List Str :=
  let sp := spacesN (_get_spaces_num maxNum k)
  match wrapF (_format_authors v.authors ++ " ".data ++ v.name ++ ".".data) TEXT_WRAP with
  | [] => []
  | first :: rest =>
    ("(".data ++ k ++ ")".data ++ sp ++ " ".data ++ first)
      :: rest.map (fun i => spacesN (k.length + 2) ++ sp ++ " ".data ++ i)

/-- One event read by `input()`: a line of text, or an interrupt signal
    arriving during the blocking read. -/
inductive ReadEv
  | line (s : Str)
  | interrupt
deriving DecidableEq, Repr

/-- How a `get_key` loop ends. -/
inductive KeyResult
  | cancelled
  | selected (k : Str)
  | interrupted
  | noInput
deriving DecidableEq, Repr

/-- `Books.get_key`: prompt, read, return `None` on `'q'`, return the
    input when it is a key of the mapping, otherwise prompt again.  There
    is no handler around `input()`: an interrupt ends the loop as
    `interrupted` (the exception propagates to the caller).  Returns the
    result, the number of prompts issued, and the unread script. -/
def get_key (dict : List (Str × NamePath)) : List ReadEv → KeyResult × Nat × List ReadEv
  | [] => (.noInput, 1, [])
  | .interrupt :: rest => (.interrupted, 1, rest)
  | .line v :: rest =>
    if v = "q".data then (.cancelled, 1, rest)
    else if (lookupAL v dict).isSome then (.selected v, 1, rest)
    else
      let r := get_key dict rest
      (r.1, r.2.1 + 1, r.2.2)

/-- The three platform cases `_open` dispatches on. -/
inductive Platform
  | wsl
  | windows
  | linux
deriving DecidableEq, Repr

/-- `Books._to_win_format`: strip one leading `'.'`, replace `os.sep`
    (`'/'`) with backslashes. -/
def _to_win_format (f : Str) : Str :=
  let f := match f with
    | '.' :: rest => rest
    | other => other
  f.map (fun c => if c = '/' then '\\' else c)

/-- `_file.relative_to(*_file.parts[:3])` for the absolute paths the
    program opens: drop the root part and the first two components. -/
def relParts3 (p : Str) : Str :=
  match p with
  | '/' :: rest => List.intercalate ['/'] (((splitChar '/' rest).filter (fun c => c ≠ [])).drop 2)
  | other => List.intercalate ['/'] (((splitChar '/' other).filter (fun c => c ≠ [])).drop 3)

/-- Observable events of one controller run. -/
inductive Ev
  | index (dir term : Str)
  | noMatch
  | printFolder (cat : List (Str × NamePath))
  | prompt
  | wrongKey (key : Str)
  | printRoot (cat : List (Str × NamePath))
  | diag (msg : Str)
  | spawn (cmd : Str)
deriving DecidableEq, Repr

/-- How a controller run ends. -/
inductive Outcome
  | done
  | interrupted
  | hung
  | oserror (msg : Str)
  | fuelOut
deriving DecidableEq, Repr

/-- `Books._open`: WSL rewrites the path into host form and spawns
    `cmd.exe`; native Windows spawns the path itself; otherwise the
    configured open command is resolved with `shutil.which` and an
    `OSError` is raised when it is not found.  `which` is the search-path
    resolver; the result lists the processes spawned (fire and forget). -/
def _open (plat : Platform) (which : Str → Option Str) (winProject xdgOpen file : Str) :
    Except Str (List Ev) :=
  match plat with
  | .wsl =>
    let f := relParts3 file
    .ok [.spawn ("cmd.exe /c '".data ++ (winProject ++ '\\' :: _to_win_format f) ++ "'".data)]
  | .windows => .ok [.spawn file]
  | .linux =>
    match which xdgOpen with
    | none => .error ("not found executable ".data ++ xdgOpen)
    | some _ => .ok [.spawn (xdgOpen ++ " ".data ++ file)]

/-- The folder-level part shared by `Books.run` (key found) and
    `Rtfm.run`: index with the search term, on an empty result print the
    no-match notice and re-index unfiltered, print the listing, run the
    selector, and open the chosen path (`if not key: return`). -/
def folderFlow (gfd : Str → Str → List (Str × NamePath))
    (opener : Str → Except Str (List Ev)) (dir term : Str) (script : List ReadEv) :
    List Ev × Outcome :=
  let fd0 := gfd dir term
  let p :=
    if fd0.isEmpty then
      ([Ev.index dir term, Ev.noMatch, Ev.index dir []], gfd dir [])
    else ([Ev.index dir term], fd0)
  let evs := p.1 ++ [Ev.printFolder p.2]
  match get_key p.2 script with
  | (.cancelled, n, _) => (evs ++ List.replicate n .prompt, .done)
  | (.interrupted, n, _) => (evs ++ List.replicate n .prompt, .interrupted)
  | (.noInput, n, _) => (evs ++ List.replicate n .prompt, .hung)
  | (.selected k, n, _) =>
    let evs := evs ++ List.replicate n .prompt
    if k = [] then (evs, .done)
    else
      match lookupAL k p.2 with
      | none => (evs, .done)
      | some v =>
        match opener v.path with
        | .ok es => (evs ++ es, .done)
        | .error msg => (evs, .oserror msg)

/-- `Rtfm.run`: the flat flow over the browsed directory itself. -/
def rtfmRun (fs : FS) (opener : Str → Except Str (List Ev)) (dir term : Str)
    (script : List ReadEv) : List Ev × Outcome :=
  folderFlow (rtfm_get_folder_dict fs) opener dir term script

/-- `Books.run`: two-level flow.  Fuel bounds the `self.run()` recursion
    taken after a wrong key; the recursion re-enters with the chosen key. -/
def booksRun (fs : FS) (opener : Str → Except Str (List Ev)) (root : Str) :
    Nat → Str → Str → List ReadEv → List Ev × Outcome
  | 0, _, _, _ => ([], .fuelOut)
  | fuel + 1, key, term, script =>
    let rdl := get_root_dict (dirsOf root (fs root))
    let evs0 := rdl.2.map Ev.diag
    match lookupAL key rdl.1 with
    | some v =>
      let r := folderFlow (get_folder_dict fs) opener v.path term script
      (evs0 ++ r.1, r.2)
    | none =>
      let evs := evs0 ++ [Ev.wrongKey key, Ev.printRoot rdl.1]
      match get_key rdl.1 script with
      | (.cancelled, n, _) => (evs ++ List.replicate n .prompt, .done)
      | (.interrupted, n, _) => (evs ++ List.replicate n .prompt, .interrupted)
      | (.noInput, n, _) => (evs ++ List.replicate n .prompt, .hung)
      | (.selected k, n, rem) =>
        let evs := evs ++ List.replicate n .prompt
        if k = [] then (evs, .done)
        else
          let r := booksRun fs opener root fuel k term rem
          (evs ++ r.1, r.2)

/-- Recognizer for the no-match notice in a trace. -/
def isNoMatchEv : Ev → Bool
  | .noMatch => true
  | _ => false

/-- Recognizer for folder-indexing events in a trace. -/
def isIndexEv : Ev → Bool
  | .index _ _ => true
  | _ => false

/-- A two-level sample tree: root `/r` holds collection `Alg__k`, which
    holds one document. -/
def fsSample : FS := fun d =>
  if d = "/r".data then [⟨"Alg__k".data, true⟩]
  else if d = "/r/Alg__k".data then [⟨"Lang__intro_algebra.pdf".data, false⟩]
  else []

/-! ### Lemmas about the split and path helpers -/

theorem splitMark_ne_nil (l : Str) : splitMark l ≠ [] := by
  match l with
  | [] => simp [splitMark]
  | [c] => simp [splitMark]
  | c1 :: c2 :: rest =>
    rw [splitMark]
    split
    · simp
    · rcases h : splitMark (c2 :: rest) with _ | ⟨p, ps⟩ <;> simp

theorem hasMark_append_slash (l : Str) (h : hasMark l = false) :
    hasMark (l ++ ['/']) = false := by
  induction l with
  | nil => simp [hasMark]
  | cons c rest ih =>
    cases rest with
    | nil => simp [hasMark]
    | cons c2 rest2 =>
      rw [hasMark, Bool.or_eq_false_iff] at h
      have hr := ih h.2
      simp only [List.cons_append] at hr ⊢
      rw [hasMark]
      simp [h.1, hr]

theorem splitMark_clean_append :
    ∀ (a b p : Str) (ps : List Str), hasMark a = false → a.getLast? ≠ some '_' →
      splitMark b = p :: ps → splitMark (a ++ b) = (a ++ p) :: ps
  | [], _, _, _, _, _, h => by simpa using h
  | [c], b, p, ps, _, h2, h => by
    simp only [List.getLast?_singleton, ne_eq, Option.some.injEq] at h2
    cases b with
    | nil =>
      simp only [splitMark, List.cons.injEq] at h
      simp [splitMark, ← h.1, ← h.2]
    | cons b1 bs =>
      rw [List.singleton_append, splitMark]
      rw [if_neg (by tauto), h]
      simp
  | c1 :: c2 :: as, b, p, ps, h1, h2, h => by
    rw [hasMark, Bool.or_eq_false_iff] at h1
    rw [List.getLast?_cons_cons] at h2
    have ih := splitMark_clean_append (c2 :: as) b p ps h1.2 h2 h
    have hne : ¬(c1 = '_' ∧ c2 = '_') := by
      intro hc
      simp [hc.1, hc.2] at h1
    rw [List.cons_append, List.cons_append, splitMark, if_neg hne, ← List.cons_append, ih]
    simp

theorem takeWhile_append_stop (p : Char → Bool) (xs ys : Str) (y : Char)
    (hx : ∀ x ∈ xs, p x = true) (hy : p y = false) :
    (xs ++ y :: ys).takeWhile p = xs := by
  induction xs with
  | nil => simp [List.takeWhile_cons, hy]
  | cons x xs ih =>
    rw [List.cons_append, List.takeWhile_cons, hx x (by simp)]
    rw [ih (fun a ha => hx a (by simp [ha]))]
    simp

theorem pathName_append (a m : Str) (hm : m ≠ []) (hm2 : '/' ∉ m) :
    pathName (a ++ '/' :: m) = m := by
  have hrev : m.reverse ≠ [] := by simpa using hm
  rcases List.exists_cons_of_ne_nil hrev with ⟨c, t, hct⟩
  have hcm : c ∈ m := List.mem_reverse.mp (by simp [hct])
  have hc : ¬c = '/' := fun h => hm2 (h ▸ hcm)
  have h1 : (a ++ '/' :: m).reverse = (c :: t) ++ '/' :: a.reverse := by
    simp [List.reverse_append, hct]
  have hALL : ∀ x ∈ m.reverse, (fun x => decide (x ≠ '/')) x = true := by
    intro x hx
    have hxm : x ∈ m := List.mem_reverse.mp hx
    simp only [decide_eq_true_eq]
    intro h
    exact hm2 (h ▸ hxm)
  have hY : (fun x => decide (x ≠ '/')) '/' = false := by simp
  rw [pathName, h1, List.cons_append, List.dropWhile_cons]
  rw [if_neg (by simp [hc])]
  rw [← List.cons_append, ← hct]
  rw [takeWhile_append_stop _ _ _ _ hALL hY, List.reverse_reverse]

theorem lastDot_eq_none (m : Str) (h : '.' ∉ m) : lastDot m = none := by
  induction m with
  | nil => rfl
  | cons c rest ih =>
    rw [lastDot, ih (fun hr => h (by simp [hr]))]
    simp only []
    rw [if_neg (fun hc => h (by simp [hc]))]

theorem pyStem_append (a m : Str) (hm : m ≠ []) (hm2 : '/' ∉ m) (hm3 : '.' ∉ m) :
    pyStem (a ++ '/' :: m) = m := by
  rw [pyStem, pathName_append a m hm hm2, lastDot_eq_none m hm3]

/-! ### Lemmas about the catalog construction -/

theorem mem_insertAL_self (k : Str) (v : NamePath) (l : List (Str × NamePath)) :
    (k, v) ∈ insertAL k v l := by
  induction l with
  | nil => simp [insertAL]
  | cons kv rest ih =>
    rcases kv with ⟨k', v'⟩
    rw [insertAL]
    by_cases h : k' = k <;> simp [h, ih]

theorem mem_insertAL_of_ne (k : Str) (v : NamePath) (k' : Str) (v' : NamePath)
    (l : List (Str × NamePath)) (h : (k, v) ∈ l) (hne : ¬k' = k) :
    (k, v) ∈ insertAL k' v' l := by
  induction l with
  | nil => simp at h
  | cons kv rest ih =>
    rcases kv with ⟨k0, v0⟩
    rw [insertAL]
    by_cases hk : k0 = k'
    · rw [if_pos hk]
      rcases List.mem_cons.mp h with h0 | h0
      · exfalso
        have hkk : k0 = k := (congrArg Prod.fst h0).symm
        exact hne (hk ▸ hkk)
      · exact List.mem_cons.mpr (.inr h0)
    · rw [if_neg hk]
      rcases List.mem_cons.mp h with h0 | h0
      · exact List.mem_cons.mpr (.inl h0)
      · exact List.mem_cons.mpr (.inr (ih h0))

theorem mem_of_mem_insertAL (k' : Str) (v' : NamePath) (l : List (Str × NamePath))
    (x : Str × NamePath) (h : x ∈ insertAL k' v' l) : x = (k', v') ∨ x ∈ l := by
  induction l with
  | nil => simpa [insertAL] using h
  | cons kv rest ih =>
    rcases kv with ⟨k0, v0⟩
    rw [insertAL] at h
    by_cases hk : k0 = k'
    · simp only [hk, if_pos rfl] at h
      rcases List.mem_cons.mp h with h0 | h0
      · exact .inl h0
      · exact .inr (List.mem_cons.mpr (.inr h0))
    · simp only [if_neg hk] at h
      rcases List.mem_cons.mp h with h0 | h0
      · exact .inr (List.mem_cons.mpr (.inl h0))
      · rcases ih h0 with h1 | h1
        · exact .inl h1
        · exact .inr (List.mem_cons.mpr (.inr h1))

theorem rootPair_path (d : Str) (k : Str) (v : NamePath) (h : rootPair d = some (k, v)) :
    v.path = d := by
  rw [rootPair] at h
  rcases hs : splitMark d with _ | ⟨n, _ | ⟨key, _ | _⟩⟩ <;> rw [hs] at h <;> simp at h
  exact (h.2.symm ▸ rfl : v.path = d)

theorem rootPair_key (d : Str) (k : Str) (v : NamePath) (h : rootPair d = some (k, v)) :
    rootKey d = some k := by
  rw [rootPair] at h
  rw [rootKey]
  rcases hs : splitMark d with _ | ⟨n, _ | ⟨key, _ | _⟩⟩ <;> rw [hs] at h <;> simp at h <;> simp [h.1]

theorem rootPair_none_of_len (d : Str) (h : (splitMark d).length ≠ 2) :
    rootPair d = none := by
  rw [rootPair]
  rcases hs : splitMark d with _ | ⟨n, _ | ⟨key, _ | _⟩⟩ <;> rw [hs] at h <;> simp at h ⊢

theorem rootPair_of_splitMark (d n k : Str) (h : splitMark d = [n, k]) :
    rootPair d = some (k, ⟨replUnders (pyStem n), d, none⟩) := by
  rw [rootPair, h]

theorem foldl_rootStep_fst_indep (ds : List Str) :
    ∀ (a : List (Str × NamePath)) (l l' : List Str),
      (List.foldl rootStep (a, l) ds).1 = (List.foldl rootStep (a, l') ds).1 := by
  induction ds with
  | nil => intro a l l'; rfl
  | cons d rest ih =>
    intro a l l'
    rw [List.foldl_cons, List.foldl_cons, rootStep, rootStep]
    rcases hp : rootPair d with _ | ⟨k, v⟩
    · exact ih a _ _
    · exact ih (insertAL k v a) _ _

theorem foldl_rootStep_mem_preserved (ds : List Str) :
    ∀ (acc : List (Str × NamePath) × List Str) (k : Str) (v : NamePath),
      (k, v) ∈ acc.1 →
      (∀ d ∈ ds, rootKey d = some k → rootPair d = some (k, v)) →
      (k, v) ∈ (List.foldl rootStep acc ds).1 := by
  induction ds with
  | nil => intro acc k v h _; exact h
  | cons d rest ih =>
    intro acc k v h hu
    rw [List.foldl_cons]
    refine ih (rootStep acc d) k v ?_ (fun d' hd' => hu d' (List.mem_cons.mpr (.inr hd')))
    rw [rootStep]
    rcases hp : rootPair d with _ | ⟨k', v'⟩
    · exact h
    · by_cases hk : k' = k
      · subst hk
        have := hu d (List.mem_cons.mpr (.inl rfl)) (rootPair_key d k' v' hp)
        rw [hp] at this
        have hv : v' = v := by simpa using this
        subst hv
        exact mem_insertAL_self k' v' acc.1
      · exact mem_insertAL_of_ne k v k' v' acc.1 h hk

theorem foldl_rootStep_mem (ds : List Str) :
    ∀ (acc : List (Str × NamePath) × List Str) (k : Str) (v : NamePath),
      (∃ d ∈ ds, rootPair d = some (k, v)) →
      (∀ d ∈ ds, rootKey d = some k → rootPair d = some (k, v)) →
      (k, v) ∈ (List.foldl rootStep acc ds).1 := by
  induction ds with
  | nil => intro acc k v h _; simp at h
  | cons d rest ih =>
    intro acc k v h hu
    rw [List.foldl_cons]
    rcases h with ⟨d0, hd0, hp0⟩
    rcases List.mem_cons.mp hd0 with rfl | hd0r
    · refine foldl_rootStep_mem_preserved rest (rootStep acc d0) k v ?_
        (fun d' hd' => hu d' (List.mem_cons.mpr (.inr hd')))
      rw [rootStep, hp0]
      exact mem_insertAL_self k v acc.1
    · exact ih (rootStep acc d) k v ⟨d0, hd0r, hp0⟩
        (fun d' hd' => hu d' (List.mem_cons.mpr (.inr hd')))

theorem mem_foldl_rootStep (ds : List Str) :
    ∀ (acc : List (Str × NamePath) × List Str) (x : Str × NamePath),
      x ∈ (List.foldl rootStep acc ds).1 →
      x ∈ acc.1 ∨ ∃ d ∈ ds, rootPair d = some x := by
  induction ds with
  | nil => intro acc x h; exact .inl h
  | cons d rest ih =>
    intro acc x h
    rw [List.foldl_cons] at h
    rcases ih (rootStep acc d) x h with h0 | ⟨d0, hd0, hp0⟩
    · rw [rootStep] at h0
      rcases hp : rootPair d with _ | ⟨k, v⟩ <;> rw [hp] at h0
      · exact .inl h0
      · rcases mem_of_mem_insertAL k v acc.1 x h0 with h1 | h1
        · exact .inr ⟨d, List.mem_cons.mpr (.inl rfl), h1 ▸ hp⟩
        · exact .inl h1
    · exact .inr ⟨d0, List.mem_cons.mpr (.inr hd0), hp0⟩

theorem foldl_rootStep_log_mono (ds : List Str) :
    ∀ (acc : List (Str × NamePath) × List Str) (x : Str),
      x ∈ acc.2 → x ∈ (List.foldl rootStep acc ds).2 := by
  induction ds with
  | nil => intro acc x h; exact h
  | cons d rest ih =>
    intro acc x h
    rw [List.foldl_cons]
    refine ih (rootStep acc d) x ?_
    rw [rootStep]
    rcases hp : rootPair d with _ | ⟨k, v⟩
    · exact List.mem_append_left _ h
    · exact h

theorem foldl_rootStep_log_mem (ds : List Str) :
    ∀ (acc : List (Str × NamePath) × List Str) (d0 : Str),
      d0 ∈ ds → rootPair d0 = none →
      fixMsg d0 ∈ (List.foldl rootStep acc ds).2 := by
  induction ds with
  | nil => intro acc d0 h _; simp at h
  | cons d rest ih =>
    intro acc d0 h hp
    rw [List.foldl_cons]
    rcases List.mem_cons.mp h with rfl | hr
    · refine foldl_rootStep_log_mono rest (rootStep acc d0) _ ?_
      rw [rootStep, hp]
      exact List.mem_append_right _ (by simp)
    · exact ih (rootStep acc d) d0 hr hp

theorem foldl_rootStep_skip (ds : List Str) (d0 : Str) (hp : rootPair d0 = none) :
    ∀ (acc : List (Str × NamePath) × List Str),
      (List.foldl rootStep acc ds).1
        = (List.foldl rootStep acc (ds.filter (fun d => d ≠ d0))).1 := by
  induction ds with
  | nil => intro acc; rfl
  | cons d rest ih =>
    intro acc
    rcases acc with ⟨a, l⟩
    rw [List.filter_cons]
    by_cases hd : d = d0
    · subst hd
      rw [if_neg (by simp)]
      rw [List.foldl_cons]
      have h1 : rootStep (a, l) d = (a, l ++ [fixMsg d]) := by rw [rootStep, hp]
      rw [h1, foldl_rootStep_fst_indep rest a (l ++ [fixMsg d]) l]
      exact ih (a, l)
    · rw [if_pos (by simp [hd])]
      rw [List.foldl_cons, List.foldl_cons]
      exact ih (rootStep (a, l) d)

theorem not_hidden_childPath (root nm : Str) (h : root.head? ≠ some '.') :
    is_dir_hidden (childPath root nm) = false := by
  cases root with
  | nil => rfl
  | cons c r =>
    have hc : ¬c = '.' := fun hc => h (by simp [hc])
    simp [childPath, is_dir_hidden, hc]

theorem childPath_mem_dirsOf (root : Str) (entries : List FSEntry) (e : FSEntry)
    (he : e ∈ entries) (hdir : e.isDir = true)
    (hh : is_dir_hidden (childPath root e.name) = false) :
    childPath root e.name ∈ dirsOf root entries := by
  rw [dirsOf]
  exact List.mem_map.mpr ⟨e, List.mem_filter.mpr ⟨he, by simp [hdir, hh]⟩, rfl⟩

theorem splitMark_childPath (root nm : Str) (p : Str) (ps : List Str)
    (hroot : hasMark root = false) (h : splitMark nm = p :: ps) :
    splitMark (childPath root nm) = ((root ++ ['/']) ++ p) :: ps := by
  have h1 : childPath root nm = (root ++ ['/']) ++ nm := by
    simp [childPath]
  rw [h1]
  exact splitMark_clean_append (root ++ ['/']) nm p ps
    (hasMark_append_slash root hroot)
    (by rw [List.getLast?_concat]; simp)
    h

/-! ### Lemmas about run traces -/

theorem countP_replicate_prompt (p : Ev → Bool) (n : Nat) (hp : p Ev.prompt = false) :
    (List.replicate n Ev.prompt).countP p = 0 := by
  rw [List.countP_eq_zero]
  intro a ha
  rw [List.eq_of_mem_replicate ha]
  simp [hp]

theorem countP_map_diag (p : Ev → Bool) (msgs : List Str)
    (hp : ∀ m, p (Ev.diag m) = false) : (msgs.map Ev.diag).countP p = 0 := by
  rw [List.countP_eq_zero]
  intro a ha
  rcases List.mem_map.mp ha with ⟨m, _, rfl⟩
  simp [hp m]

theorem _open_ok_counts (plat : Platform) (which : Str → Option Str)
    (winProject xdgOpen file : Str) (es : List Ev)
    (h : _open plat which winProject xdgOpen file = .ok es) :
    es.countP isNoMatchEv = 0 ∧ es.countP isIndexEv = 0 := by
  cases plat with
  | wsl =>
    rw [_open] at h
    have : es = [Ev.spawn ("cmd.exe /c '".data
        ++ (winProject ++ '\\' :: _to_win_format (relParts3 file)) ++ "'".data)] := by
      exact (by simpa using h.symm)
    subst this
    constructor <;> rfl
  | windows =>
    rw [_open] at h
    have : es = [Ev.spawn file] := by exact (by simpa using h.symm)
    subst this
    constructor <;> rfl
  | linux =>
    rw [_open] at h
    rcases hw : which xdgOpen with _ | p <;> rw [hw] at h
    · simp at h
    · have : es = [Ev.spawn (xdgOpen ++ " ".data ++ file)] := by
        exact (by simpa using h.symm)
      subst this
      constructor <;> rfl

theorem folderFlow_empty (gfd : Str → Str → List (Str × NamePath))
    (opener : Str → Except Str (List Ev)) (dir term : Str) (script : List ReadEv)
    (hop : ∀ f es, opener f = .ok es → es.countP isNoMatchEv = 0 ∧ es.countP isIndexEv = 0)
    (hempty : gfd dir term = []) :
    ∃ tail out,
      folderFlow gfd opener dir term script
        = ([Ev.index dir term, Ev.noMatch, Ev.index dir [],
            Ev.printFolder (gfd dir [])] ++ tail, out)
      ∧ tail.countP isNoMatchEv = 0 ∧ tail.countP isIndexEv = 0 := by
  rw [folderFlow]
  simp only [hempty, List.isEmpty_nil, if_true]
  rcases hk : get_key (gfd dir []) script with ⟨r, n, rem⟩
  cases r with
  | cancelled =>
    exact ⟨List.replicate n .prompt, .done, by simp,
      countP_replicate_prompt _ n rfl, countP_replicate_prompt _ n rfl⟩
  | interrupted =>
    exact ⟨List.replicate n .prompt, .interrupted, by simp,
      countP_replicate_prompt _ n rfl, countP_replicate_prompt _ n rfl⟩
  | noInput =>
    exact ⟨List.replicate n .prompt, .hung, by simp,
      countP_replicate_prompt _ n rfl, countP_replicate_prompt _ n rfl⟩
  | selected k =>
    by_cases hknil : k = []
    · subst hknil
      exact ⟨List.replicate n .prompt, .done, by simp,
        countP_replicate_prompt _ n rfl, countP_replicate_prompt _ n rfl⟩
    · rcases hl : lookupAL k (gfd dir []) with _ | v
      · exact ⟨List.replicate n .prompt, .done, by simp [hknil, hl],
          countP_replicate_prompt _ n rfl, countP_replicate_prompt _ n rfl⟩
      · rcases ho : opener v.path with msg | es
        · exact ⟨List.replicate n .prompt, .oserror msg, by simp [hknil, hl, ho],
            countP_replicate_prompt _ n rfl, countP_replicate_prompt _ n rfl⟩
        · refine ⟨List.replicate n .prompt ++ es, .done, by simp [hknil, hl, ho], ?_, ?_⟩
          · rw [List.countP_append, countP_replicate_prompt _ n rfl, (hop v.path es ho).1]
          · rw [List.countP_append, countP_replicate_prompt _ n rfl, (hop v.path es ho).2]

theorem folderFlow_nonempty (gfd : Str → Str → List (Str × NamePath))
    (opener : Str → Except Str (List Ev)) (dir term : Str) (script : List ReadEv)
    (hop : ∀ f es, opener f = .ok es → es.countP isNoMatchEv = 0 ∧ es.countP isIndexEv = 0)
    (hne : gfd dir term ≠ []) :
    ∃ tail out,
      folderFlow gfd opener dir term script
        = ([Ev.index dir term, Ev.printFolder (gfd dir term)] ++ tail, out)
      ∧ tail.countP isNoMatchEv = 0 ∧ tail.countP isIndexEv = 0 := by
  have hE : (gfd dir term).isEmpty = false := by
    cases hg : gfd dir term with
    | nil => exact absurd hg hne
    | cons a l => rfl
  rw [folderFlow]
  simp only [hE, Bool.false_eq_true, if_false]
  rcases hk : get_key (gfd dir term) script with ⟨r, n, rem⟩
  cases r with
  | cancelled =>
    exact ⟨List.replicate n .prompt, .done, by simp,
      countP_replicate_prompt _ n rfl, countP_replicate_prompt _ n rfl⟩
  | interrupted =>
    exact ⟨List.replicate n .prompt, .interrupted, by simp,
      countP_replicate_prompt _ n rfl, countP_replicate_prompt _ n rfl⟩
  | noInput =>
    exact ⟨List.replicate n .prompt, .hung, by simp,
      countP_replicate_prompt _ n rfl, countP_replicate_prompt _ n rfl⟩
  | selected k =>
    by_cases hknil : k = []
    · subst hknil
      exact ⟨List.replicate n .prompt, .done, by simp,
        countP_replicate_prompt _ n rfl, countP_replicate_prompt _ n rfl⟩
    · rcases hl : lookupAL k (gfd dir term) with _ | v
      · exact ⟨List.replicate n .prompt, .done, by simp [hknil, hl],
          countP_replicate_prompt _ n rfl, countP_replicate_prompt _ n rfl⟩
      · rcases ho : opener v.path with msg | es
        · exact ⟨List.replicate n .prompt, .oserror msg, by simp [hknil, hl, ho],
            countP_replicate_prompt _ n rfl, countP_replicate_prompt _ n rfl⟩
        · refine ⟨List.replicate n .prompt ++ es, .done, by simp [hknil, hl, ho], ?_, ?_⟩
          · rw [List.countP_append, countP_replicate_prompt _ n rfl, (hop v.path es ho).1]
          · rw [List.countP_append, countP_replicate_prompt _ n rfl, (hop v.path es ho).2]

/-! ### Claim theorems -/

/-- C1 (counterexample): the file stem `State__lambda_calculus` contains
    "TAT" case-insensitively (the lower-cased term occurs in the
    lower-cased stem), so the claim includes the file; yet `_files` with
    search term "TAT" returns nothing — the code never lower-cases the
    search term, only the stem. -/
theorem uppercase_search_term_fails :
    isInfixB (lowerStr "TAT".data)
      (lowerStr (pyStem "/r/State__lambda_calculus.pdf".data)) = true
    ∧ _files "/r".data [⟨"State__lambda_calculus.pdf".data, false⟩] "TAT".data = [] := by
  constructor
  · rfl
  · rfl

/-- C1 (amended): `_files` requires the search term to occur verbatim in
    the lower-cased stem; it therefore agrees with the spec's
    case-insensitive filter exactly when the search term is already
    lower-case. -/
theorem files_filter_matches_spec_on_lowercase_term
    (dir term : Str) (entries : List FSEntry) (h : lowerStr term = term) :
    _files dir entries term = _files_spec dir entries term := by
  rw [_files, _files_spec, h]

/-- Witness for the amended C1 theorem at a concrete lower-case term. -/
theorem files_filter_matches_spec_on_lowercase_term_inst :
    lowerStr "tat".data = "tat".data
    ∧ _files "/r".data [⟨"State__lambda_calculus.pdf".data, false⟩] "tat".data
      = _files_spec "/r".data [⟨"State__lambda_calculus.pdf".data, false⟩] "tat".data :=
  ⟨rfl, files_filter_matches_spec_on_lowercase_term "/r".data "tat".data
    [⟨"State__lambda_calculus.pdf".data, false⟩] rfl⟩

/-- C2 (code evaluated at the failing input): the subdirectory `.git` of
    the absolute root `/home/nvasilas/docs/books` has a name starting with
    `'.'`, yet `_dirs` enumerates it — `is_dir_hidden` tests the full path
    string, which starts with `'/'`, never with `'.'`. -/
theorem hidden_subdir_included_under_absolute_root :
    ".git".data.head? = some '.'
    ∧ dirsOf "/home/nvasilas/docs/books".data [⟨".git".data, true⟩]
        = ["/home/nvasilas/docs/books/.git".data] := by
  constructor
  · rfl
  · rfl

/-- C6: the selector loop: any sequence of invalid inputs (neither the
    cancel token nor a key) only re-issues the prompt; a following "q"
    terminates with no selection, and a following key (other than the
    cancel token) terminates returning exactly that key, the catalog
    untouched. -/
theorem selector_retries_until_valid_or_cancel
    (dict : List (Str × NamePath)) (invs : List Str) (rest : List ReadEv) (v : Str)
    (hinv : ∀ i ∈ invs, ¬i = "q".data ∧ lookupAL i dict = none) :
    get_key dict (invs.map .line ++ .line "q".data :: rest)
      = (.cancelled, invs.length + 1, rest)
    ∧ (¬v = "q".data → (lookupAL v dict).isSome = true →
        get_key dict (invs.map .line ++ .line v :: rest)
          = (.selected v, invs.length + 1, rest)) := by
  induction invs with
  | nil =>
    refine ⟨by rw [List.map_nil, List.nil_append, get_key, if_pos rfl]; rfl, ?_⟩
    intro h1 h2
    rw [List.map_nil, List.nil_append, get_key, if_neg h1, if_pos h2]
    rfl
  | cons i is ih =>
    have hi := hinv i (by simp)
    have ihs := ih (fun j hj => hinv j (by simp [hj]))
    constructor
    · rw [List.map_cons, List.cons_append, get_key, if_neg hi.1,
        if_neg (by simp [hi.2]), ihs.1]
      simp
    · intro h1 h2
      rw [List.map_cons, List.cons_append, get_key, if_neg hi.1,
        if_neg (by simp [hi.2]), ihs.2 h1 h2]
      simp

/-- Witness for C6 at two invalid inputs followed by the valid key "1". -/
theorem selector_retries_until_valid_or_cancel_inst :
    (∀ i ∈ ["x".data, "y".data], ¬i = "q".data
      ∧ lookupAL i [("1".data, ⟨"intro algebra".data, "/r/f.pdf".data, none⟩)] = none)
    ∧ get_key [("1".data, ⟨"intro algebra".data, "/r/f.pdf".data, none⟩)]
        (["x".data, "y".data].map .line ++ .line "q".data :: [])
        = (.cancelled, 3, [])
    ∧ get_key [("1".data, ⟨"intro algebra".data, "/r/f.pdf".data, none⟩)]
        (["x".data, "y".data].map .line ++ .line "1".data :: [])
        = (.selected "1".data, 3, []) := by
  have h := selector_retries_until_valid_or_cancel
    [("1".data, ⟨"intro algebra".data, "/r/f.pdf".data, none⟩)]
    ["x".data, "y".data] [] "1".data (by decide)
  exact ⟨by decide, h.1, h.2 (by decide) (by decide)⟩

/-- C8: on native Linux, `_open` raises the not-found error exactly when
    the configured open command is unresolvable on the search path, and
    then spawns nothing; when resolvable it spawns exactly the viewer
    command and nothing else (no waiting, no fallback). -/
theorem linux_open_error_iff_unresolvable
    (which : Str → Option Str) (winProject xdgOpen file : Str) :
    ((∃ msg, _open .linux which winProject xdgOpen file = .error msg) ↔ which xdgOpen = none)
    ∧ (which xdgOpen = none →
        _open .linux which winProject xdgOpen file
          = .error ("not found executable ".data ++ xdgOpen))
    ∧ (∀ p, which xdgOpen = some p →
        _open .linux which winProject xdgOpen file
          = .ok [.spawn (xdgOpen ++ " ".data ++ file)]) := by
  rcases hw : which xdgOpen with _ | p
  · simp [_open, hw]
  · simp [_open, hw]

/-- Witness for C8: an unresolvable and a resolvable `which`. -/
theorem linux_open_error_iff_unresolvable_inst :
    _open .linux (fun _ => none) [] "xdg-open".data "/r/f.pdf".data
      = .error ("not found executable ".data ++ "xdg-open".data)
    ∧ _open .linux (fun c => some c) [] "xdg-open".data "/r/f.pdf".data
      = .ok [.spawn ("xdg-open".data ++ " ".data ++ "/r/f.pdf".data)] :=
  ⟨(linux_open_error_iff_unresolvable (fun _ => none) [] "xdg-open".data "/r/f.pdf".data).2.1 rfl,
   (linux_open_error_iff_unresolvable (fun c => some c) [] "xdg-open".data "/r/f.pdf".data).2.2
     "xdg-open".data rfl⟩

/-- C10: when "q" happens to be a key of the catalog, input "q" still
    cancels (no selection), and no input sequence can make the selector
    return the entry keyed "q": the cancel test precedes the key lookup. -/
theorem cancel_token_precedes_key_lookup
    (dict : List (Str × NamePath)) (rest : List ReadEv)
    (h : lookupAL "q".data dict ≠ none) :
    get_key dict (.line "q".data :: rest) = (.cancelled, 1, rest)
    ∧ ∀ script, (get_key dict script).1 ≠ .selected "q".data := by
  refine ⟨by rw [get_key, if_pos rfl], ?_⟩
  intro script
  induction script with
  | nil => simp [get_key]
  | cons ev rest2 ih =>
    cases ev with
    | interrupt => simp [get_key]
    | line v =>
      rw [get_key]
      by_cases hv : v = "q".data
      · rw [if_pos hv]
        simp
      · rw [if_neg hv]
        cases hl : (lookupAL v dict).isSome with
        | true => simp [hl, hv]
        | false =>
          simp only [hl, Bool.false_eq_true, if_false]
          simpa using ih

/-- Witness for C10 on a catalog whose only key is "q". -/
theorem cancel_token_precedes_key_lookup_inst :
    lookupAL "q".data [("q".data, ⟨"Q".data, "/r/Q__q".data, none⟩)] ≠ none
    ∧ get_key [("q".data, ⟨"Q".data, "/r/Q__q".data, none⟩)] [.line "q".data]
        = (.cancelled, 1, [])
    ∧ ∀ script, (get_key [("q".data, ⟨"Q".data, "/r/Q__q".data, none⟩)] script).1
        ≠ .selected "q".data := by
  have h := cancel_token_precedes_key_lookup
    [("q".data, ⟨"Q".data, "/r/Q__q".data, none⟩)] [] (by decide)
  exact ⟨by decide, h.1, h.2⟩

/-- C3 (counterexample): the directory name `a.b__k` matches `name__key`
    with name part `a.b`, but the catalog entry's display name is "a", not
    "a.b" — `Path(_name).stem` strips the `.b` suffix of the name part
    before underscores are replaced. -/
theorem dotted_name_part_display_name_truncated :
    splitMark "a.b__k".data = ["a.b".data, "k".data]
    ∧ (get_root_dict (dirsOf "/r".data [⟨"a.b__k".data, true⟩])).1
      = [("k".data, ⟨"a".data, "/r/a.b__k".data, none⟩)]
    ∧ ¬("a".data = "a.b".data) := by
  refine ⟨rfl, rfl, by decide⟩

/-- C3 (amended): provided the root path contains no double underscore and
    does not itself start with `'.'`, and the subdirectory's name splits
    as `name__key` with the name part nonempty and free of `'/'` and
    `'.'`, and no other enumerated directory files under the same key,
    `get_root_dict` produces the entry keyed `key` with display name
    `name` with underscores replaced by spaces. -/
theorem well_formed_dir_indexed
    (root : Str) (entries : List FSEntry) (e : FSEntry) (npart kpart : Str)
    (he : e ∈ entries) (hdir : e.isDir = true)
    (hname : splitMark e.name = [npart, kpart])
    (hroot1 : hasMark root = false) (hroot2 : root.head? ≠ some '.')
    (hn1 : npart ≠ []) (hn2 : '/' ∉ npart) (hn3 : '.' ∉ npart)
    (huniq : ∀ d ∈ dirsOf root entries, rootKey d = some kpart →
      rootPair d = some (kpart, ⟨replUnders npart, childPath root e.name, none⟩)) :
    (kpart, (⟨replUnders npart, childPath root e.name, none⟩ : NamePath))
      ∈ (get_root_dict (dirsOf root entries)).1 := by
  have hmem : childPath root e.name ∈ dirsOf root entries :=
    childPath_mem_dirsOf root entries e he hdir (not_hidden_childPath root e.name hroot2)
  have hsplit : splitMark (childPath root e.name)
      = ((root ++ ['/']) ++ npart) :: [kpart] :=
    splitMark_childPath root e.name npart [kpart] hroot1 hname
  have hstem : pyStem ((root ++ ['/']) ++ npart) = npart := by
    rw [List.append_assoc, List.singleton_append]
    exact pyStem_append root npart hn1 hn2 hn3
  have hpair : rootPair (childPath root e.name)
      = some (kpart, ⟨replUnders npart, childPath root e.name, none⟩) := by
    have h0 := rootPair_of_splitMark (childPath root e.name)
      ((root ++ ['/']) ++ npart) kpart hsplit
    rw [hstem] at h0
    exact h0
  rw [get_root_dict]
  exact foldl_rootStep_mem (dirsOf root entries) ([], []) kpart
    ⟨replUnders npart, childPath root e.name, none⟩
    ⟨childPath root e.name, hmem, hpair⟩ huniq

/-- Witness for the amended C3 theorem on a two-collection root. -/
theorem well_formed_dir_indexed_inst :
    splitMark "Algebra__alg".data = ["Algebra".data, "alg".data]
    ∧ ("alg".data, (⟨replUnders "Algebra".data,
        childPath "/r".data "Algebra__alg".data, none⟩ : NamePath))
        ∈ (get_root_dict (dirsOf "/r".data
            [⟨"Algebra__alg".data, true⟩, ⟨"Topology__topo".data, true⟩])).1 := by
  constructor
  · rfl
  · exact well_formed_dir_indexed "/r".data
      [⟨"Algebra__alg".data, true⟩, ⟨"Topology__topo".data, true⟩]
      ⟨"Algebra__alg".data, true⟩ "Algebra".data "alg".data
      (by decide) rfl rfl rfl (by decide) (by decide) (by decide) (by decide) (by decide)

/-- C4 (counterexample): with root `/a__b` — a root path containing the
    separator — and subdirectory `c`, whose own name does not split into
    two parts, `get_root_dict` indexes the directory anyway under key
    `b/c` and reports nothing: the split is applied to the full path. -/
theorem malformed_name_indexed_when_root_has_mark :
    splitMark "c".data = ["c".data]
    ∧ get_root_dict (dirsOf "/a__b".data [⟨"c".data, true⟩])
      = ([("b/c".data, ⟨"a".data, "/a__b/c".data, none⟩)], []) := ⟨rfl, rfl⟩

/-- C4 (amended): provided the root path contains no double underscore and
    does not start with `'.'`, every enumerated subdirectory whose name
    does not split into exactly two parts is reported with the
    `Fix directory` diagnostic, contributes no catalog entry, and leaves
    the indexing of the remaining directories unchanged. -/
theorem malformed_dir_skipped_and_reported
    (root : Str) (entries : List FSEntry) (e : FSEntry)
    (he : e ∈ entries) (hdir : e.isDir = true)
    (hroot1 : hasMark root = false) (hroot2 : root.head? ≠ some '.')
    (hname : (splitMark e.name).length ≠ 2) :
    fixMsg (childPath root e.name) ∈ (get_root_dict (dirsOf root entries)).2
    ∧ (∀ kv ∈ (get_root_dict (dirsOf root entries)).1,
        kv.2.path ≠ childPath root e.name)
    ∧ (get_root_dict (dirsOf root entries)).1
      = (get_root_dict ((dirsOf root entries).filter
          (fun d => d ≠ childPath root e.name))).1 := by
  have hmem : childPath root e.name ∈ dirsOf root entries :=
    childPath_mem_dirsOf root entries e he hdir (not_hidden_childPath root e.name hroot2)
  have hlen : (splitMark (childPath root e.name)).length ≠ 2 := by
    rcases hs : splitMark e.name with _ | ⟨p, ps⟩
    · exact absurd hs (splitMark_ne_nil e.name)
    · rw [splitMark_childPath root e.name p ps hroot1 hs]
      rw [hs] at hname
      simpa using hname
  have hp : rootPair (childPath root e.name) = none := rootPair_none_of_len _ hlen
  refine ⟨foldl_rootStep_log_mem _ ([], []) _ hmem hp, ?_, ?_⟩
  · intro kv hkv
    rcases mem_foldl_rootStep _ ([], []) kv hkv with h0 | ⟨d, _, hd⟩
    · simp at h0
    · intro hpath
      have hpd : kv.2.path = d := rootPair_path d kv.1 kv.2 hd
      rw [hpath] at hpd
      rw [← hpd, hp] at hd
      exact Option.noConfusion hd
  · rw [get_root_dict, get_root_dict]
    exact foldl_rootStep_skip (dirsOf root entries) (childPath root e.name) hp ([], [])

/-- Witness for the amended C4 theorem: a malformed directory next to a
    well-formed one. -/
theorem malformed_dir_skipped_and_reported_inst :
    (splitMark "bad".data).length ≠ 2
    ∧ fixMsg (childPath "/r".data "bad".data)
        ∈ (get_root_dict (dirsOf "/r".data
            [⟨"bad".data, true⟩, ⟨"Algebra__alg".data, true⟩])).2
    ∧ (∀ kv ∈ (get_root_dict (dirsOf "/r".data
          [⟨"bad".data, true⟩, ⟨"Algebra__alg".data, true⟩])).1,
        kv.2.path ≠ childPath "/r".data "bad".data)
    ∧ (get_root_dict (dirsOf "/r".data
          [⟨"bad".data, true⟩, ⟨"Algebra__alg".data, true⟩])).1
      = (get_root_dict ((dirsOf "/r".data
          [⟨"bad".data, true⟩, ⟨"Algebra__alg".data, true⟩]).filter
          (fun d => d ≠ childPath "/r".data "bad".data))).1 := by
  have h := malformed_dir_skipped_and_reported "/r".data
    [⟨"bad".data, true⟩, ⟨"Algebra__alg".data, true⟩] ⟨"bad".data, true⟩
    (by decide) rfl (by decide) (by decide) (by decide)
  exact ⟨by decide, h.1, h.2.1, h.2.2⟩

/-- C9: in `print_root`, when every key is no longer than the tracked
    maximum, every row's display name starts at the same column
    (prefix width `maxKey + 5`); in `_split_text` the first line's key
    prefix and every continuation line's all-blank prefix have the same
    visual width (`maxNum + 4`), for any wrapping function, so wrapped
    text aligns under the first line's text column. -/
theorem formatter_alignment
    (maxKey maxNum : Nat) (d : List (Str × NamePath))
    (wrapF : Str → Nat → List Str) (k : Str) (v : NamePath)
    (hk : ∀ kv ∈ d, kv.1.length ≤ maxKey) (hn : k.length ≤ maxNum) :
    (∀ kv ∈ d, ∃ pre, print_root_line maxKey kv.1 kv.2 = pre ++ kv.2.name
        ∧ pre.length = maxKey + 5)
    ∧ (∀ line ∈ (_split_text wrapF maxNum k v).take 1,
        ∃ pre chunk, line = pre ++ chunk ∧ pre.length = maxNum + 4)
    ∧ (∀ line ∈ (_split_text wrapF maxNum k v).tail,
        ∃ chunk, line = spacesN (maxNum + 4) ++ chunk) := by
  have e1 : "(".data.length = 1 := rfl
  have e2 : ") ".data.length = 2 := rfl
  have e3 : " ".data.length = 1 := rfl
  have e4 : ")".data.length = 1 := rfl
  refine ⟨?_, ?_, ?_⟩
  · intro kv hkv
    refine ⟨"(".data ++ kv.1 ++ ") ".data ++ spacesN (_get_spaces_key maxKey kv.1)
      ++ " ".data, ?_, ?_⟩
    · rw [print_root_line]
    · have hlen := hk kv hkv
      simp only [List.length_append, spacesN, List.length_replicate, _get_spaces_key,
        List.length_cons, List.length_nil]
      omega
  · rcases hw : wrapF (_format_authors v.authors ++ " ".data ++ v.name ++ ".".data)
        TEXT_WRAP with _ | ⟨first, rest⟩
    · intro line hline
      rw [_split_text, hw] at hline
      simp at hline
    · intro line hline
      rw [_split_text, hw] at hline
      simp only [List.take_succ_cons, List.take_zero, List.mem_singleton] at hline
      subst hline
      refine ⟨"(".data ++ k ++ ")".data ++ spacesN (_get_spaces_num maxNum k)
        ++ " ".data, first, by simp [List.append_assoc], ?_⟩
      simp only [List.length_append, spacesN, List.length_replicate, _get_spaces_num,
        List.length_cons, List.length_nil]
      omega
  · rcases hw : wrapF (_format_authors v.authors ++ " ".data ++ v.name ++ ".".data)
        TEXT_WRAP with _ | ⟨first, rest⟩
    · intro line hline
      rw [_split_text, hw] at hline
      simp at hline
    · intro line hline
      rw [_split_text, hw] at hline
      simp only [List.tail_cons, List.mem_map] at hline
      rcases hline with ⟨i, _, rfl⟩
      refine ⟨i, ?_⟩
      have hsp : spacesN (k.length + 2)
          ++ (spacesN (_get_spaces_num maxNum k) ++ " ".data)
          = spacesN (maxNum + 4) := by
        have h1 : " ".data = spacesN 1 := rfl
        rw [h1, spacesN, spacesN, spacesN, spacesN,
          ← List.replicate_add, ← List.replicate_add]
        congr 1
        simp only [_get_spaces_num]
        omega
      rw [← hsp]
      simp only [List.append_assoc]

/-- Witness for C9 with keys of lengths one and two, maximum two, and a
    concrete two-chunk wrapping function. -/
theorem formatter_alignment_inst :
    (∀ kv ∈ [("1".data, (⟨"A".data, "/r/a.pdf".data, none⟩ : NamePath)),
             ("12".data, (⟨"B".data, "/r/b.pdf".data, none⟩ : NamePath))],
        kv.1.length ≤ 2)
    ∧ ("1".data : Str).length ≤ 2
    ∧ ((∀ kv ∈ [("1".data, (⟨"A".data, "/r/a.pdf".data, none⟩ : NamePath)),
             ("12".data, (⟨"B".data, "/r/b.pdf".data, none⟩ : NamePath))],
        ∃ pre, print_root_line 2 kv.1 kv.2 = pre ++ kv.2.name ∧ pre.length = 2 + 5)
      ∧ (∀ line ∈ (_split_text (fun s n => [s.take n, s.drop n]) 2 "1".data
            ⟨"A".data, "/r/a.pdf".data, none⟩).take 1,
          ∃ pre chunk, line = pre ++ chunk ∧ pre.length = 2 + 4)
      ∧ (∀ line ∈ (_split_text (fun s n => [s.take n, s.drop n]) 2 "1".data
            ⟨"A".data, "/r/a.pdf".data, none⟩).tail,
          ∃ chunk, line = spacesN (2 + 4) ++ chunk)) := by
  refine ⟨by decide, by decide, ?_⟩
  exact formatter_alignment 2 2
    [("1".data, ⟨"A".data, "/r/a.pdf".data, none⟩),
     ("12".data, ⟨"B".data, "/r/b.pdf".data, none⟩)]
    (fun s n => [s.take n, s.drop n]) "1".data ⟨"A".data, "/r/a.pdf".data, none⟩
    (by decide) (by decide)

/-- C5: when indexing a collection directory with a non-empty search term
    yields an empty folder catalog, both `Rtfm.run` and `Books.run` (with
    the key found) print exactly one no-match notice followed by exactly
    one fallback re-index of the same directory with no search term and
    display that unfiltered listing; when the filtered catalog is
    non-empty, no notice and no further indexing occur. -/
theorem empty_filtered_catalog_single_fallback
    (fs : FS) (plat : Platform) (which : Str → Option Str)
    (winProject xdgOpen root key term dir : Str)
    (script : List ReadEv) (v : NamePath) (fuel : Nat) :
    (term ≠ [] → rtfm_get_folder_dict fs dir term = [] →
      ∃ tail out,
        rtfmRun fs (_open plat which winProject xdgOpen) dir term script
          = ([Ev.index dir term, Ev.noMatch, Ev.index dir [],
              Ev.printFolder (rtfm_get_folder_dict fs dir [])] ++ tail, out)
        ∧ tail.countP isNoMatchEv = 0 ∧ tail.countP isIndexEv = 0)
    ∧ (rtfm_get_folder_dict fs dir term ≠ [] →
      ∃ tail out,
        rtfmRun fs (_open plat which winProject xdgOpen) dir term script
          = ([Ev.index dir term,
              Ev.printFolder (rtfm_get_folder_dict fs dir term)] ++ tail, out)
        ∧ tail.countP isNoMatchEv = 0 ∧ tail.countP isIndexEv = 0)
    ∧ (lookupAL key (get_root_dict (dirsOf root (fs root))).1 = some v →
      (term ≠ [] → get_folder_dict fs v.path term = [] →
        ∃ tail out,
          booksRun fs (_open plat which winProject xdgOpen) root (fuel + 1) key term script
            = ((get_root_dict (dirsOf root (fs root))).2.map Ev.diag
                ++ ([Ev.index v.path term, Ev.noMatch, Ev.index v.path [],
                    Ev.printFolder (get_folder_dict fs v.path [])] ++ tail), out)
          ∧ tail.countP isNoMatchEv = 0 ∧ tail.countP isIndexEv = 0)
      ∧ (get_folder_dict fs v.path term ≠ [] →
        ∃ tail out,
          booksRun fs (_open plat which winProject xdgOpen) root (fuel + 1) key term script
            = ((get_root_dict (dirsOf root (fs root))).2.map Ev.diag
                ++ ([Ev.index v.path term,
                    Ev.printFolder (get_folder_dict fs v.path term)] ++ tail), out)
          ∧ tail.countP isNoMatchEv = 0 ∧ tail.countP isIndexEv = 0)) := by
  have hop : ∀ f es, _open plat which winProject xdgOpen f = .ok es →
      es.countP isNoMatchEv = 0 ∧ es.countP isIndexEv = 0 :=
    fun f es h => _open_ok_counts plat which winProject xdgOpen f es h
  refine ⟨fun _ hempty => ?_, fun hne => ?_, fun hkey => ⟨fun _ hempty => ?_, fun hne => ?_⟩⟩
  · rw [rtfmRun]
    exact folderFlow_empty (rtfm_get_folder_dict fs) _ dir term script hop hempty
  · rw [rtfmRun]
    exact folderFlow_nonempty (rtfm_get_folder_dict fs) _ dir term script hop hne
  · rcases folderFlow_empty (get_folder_dict fs) (_open plat which winProject xdgOpen)
      v.path term script hop hempty with ⟨tail, out, heq, h1, h2⟩
    refine ⟨tail, out, ?_, h1, h2⟩
    rw [booksRun]
    simp only [hkey, heq]
  · rcases folderFlow_nonempty (get_folder_dict fs) (_open plat which winProject xdgOpen)
      v.path term script hop hne with ⟨tail, out, heq, h1, h2⟩
    refine ⟨tail, out, ?_, h1, h2⟩
    rw [booksRun]
    simp only [hkey, heq]

/-- Witness for C5: a collection with one document, search term "zzz"
    matching nothing, cancel input. -/
theorem empty_filtered_catalog_single_fallback_inst :
    ("zzz".data ≠ ([] : Str))
    ∧ rtfm_get_folder_dict fsSample "/r/Alg__k".data "zzz".data = []
    ∧ (∃ tail out,
        rtfmRun fsSample (_open .linux (fun c => some c) [] "xdg-open".data)
            "/r/Alg__k".data "zzz".data [.line "q".data]
          = ([Ev.index "/r/Alg__k".data "zzz".data, Ev.noMatch,
              Ev.index "/r/Alg__k".data [],
              Ev.printFolder (rtfm_get_folder_dict fsSample "/r/Alg__k".data [])] ++ tail,
            out)
        ∧ tail.countP isNoMatchEv = 0 ∧ tail.countP isIndexEv = 0)
    ∧ lookupAL "k".data (get_root_dict (dirsOf "/r".data (fsSample "/r".data))).1
        = some ⟨"Alg".data, "/r/Alg__k".data, none⟩
    ∧ (∃ tail out,
        booksRun fsSample (_open .linux (fun c => some c) [] "xdg-open".data)
            "/r".data (0 + 1) "k".data "zzz".data [.line "q".data]
          = ((get_root_dict (dirsOf "/r".data (fsSample "/r".data))).2.map Ev.diag
              ++ ([Ev.index "/r/Alg__k".data "zzz".data, Ev.noMatch,
                  Ev.index "/r/Alg__k".data [],
                  Ev.printFolder (get_folder_dict fsSample "/r/Alg__k".data [])] ++ tail),
            out)
        ∧ tail.countP isNoMatchEv = 0 ∧ tail.countP isIndexEv = 0) := by
  have h := empty_filtered_catalog_single_fallback fsSample .linux (fun c => some c)
    [] "xdg-open".data "/r".data "k".data "zzz".data "/r/Alg__k".data
    [.line "q".data] ⟨"Alg".data, "/r/Alg__k".data, none⟩ 0
  have hlk : lookupAL "k".data (get_root_dict (dirsOf "/r".data (fsSample "/r".data))).1
      = some ⟨"Alg".data, "/r/Alg__k".data, none⟩ := by decide
  exact ⟨by decide, by decide, h.1 (by decide) (by decide), hlk,
    (h.2.2 hlk).1 (by decide) (by decide)⟩

/-- C7 (counterexample): an interrupt during the blocking read is not
    converted into a clean return: `get_key` ends by propagating it, and a
    `Books.run` that reaches the selector ends `interrupted` — not the
    success termination the claim describes.  No handler exists anywhere
    in the program. -/
theorem interrupt_propagates_not_success :
    get_key [] [.interrupt] = (.interrupted, 1, [])
    ∧ (booksRun fsSample (_open .linux (fun c => some c) [] "xdg-open".data)
        "/r".data 1 "k".data [] [.interrupt]).2 = Outcome.interrupted
    ∧ Outcome.interrupted ≠ Outcome.done := by
  refine ⟨rfl, by decide, by decide⟩

/-- C7 (amended): the interrupt is caught nowhere: `get_key` propagates it
    after any number of invalid attempts, the shared folder flow of
    `Books.run` / `Rtfm.run` ends `interrupted` whenever its selector does,
    and `Books.run` with the key found propagates that outcome — the
    process does not end as a success. -/
theorem interrupt_uncaught_propagates
    (dict : List (Str × NamePath)) (invs : List Str) (rest : List ReadEv)
    (hinv : ∀ i ∈ invs, ¬i = "q".data ∧ lookupAL i dict = none) :
    get_key dict (invs.map .line ++ .interrupt :: rest)
      = (.interrupted, invs.length + 1, rest)
    ∧ (∀ (gfd : Str → Str → List (Str × NamePath))
        (opener : Str → Except Str (List Ev)) (dir term : Str) (script : List ReadEv),
        (get_key (if (gfd dir term).isEmpty then gfd dir [] else gfd dir term) script).1
          = .interrupted →
        (folderFlow gfd opener dir term script).2 = .interrupted)
    ∧ (∀ (fs : FS) (opener : Str → Except Str (List Ev)) (root key term : Str)
        (script : List ReadEv) (fuel : Nat) (v : NamePath),
        lookupAL key (get_root_dict (dirsOf root (fs root))).1 = some v →
        (folderFlow (get_folder_dict fs) opener v.path term script).2 = .interrupted →
        (booksRun fs opener root (fuel + 1) key term script).2 = .interrupted) := by
  refine ⟨?_, ?_, ?_⟩
  · induction invs with
    | nil =>
      rw [List.map_nil, List.nil_append, get_key]
      rfl
    | cons i is ih =>
      have hi := hinv i (by simp)
      rw [List.map_cons, List.cons_append, get_key, if_neg hi.1,
        if_neg (by simp [hi.2]), ih (fun j hj => hinv j (by simp [hj]))]
      simp
  · intro gfd opener dir term script hg
    rw [folderFlow]
    cases hE : (gfd dir term).isEmpty with
    | false =>
      simp only [hE, Bool.false_eq_true, if_false] at hg ⊢
      rcases hk : get_key (gfd dir term) script with ⟨r, n, rem⟩
      rw [hk] at hg
      cases r with
      | cancelled => simp at hg
      | interrupted => simp
      | noInput => simp at hg
      | selected k => simp at hg
    | true =>
      simp only [hE, if_true] at hg ⊢
      rcases hk : get_key (gfd dir []) script with ⟨r, n, rem⟩
      rw [hk] at hg
      cases r with
      | cancelled => simp at hg
      | interrupted => simp
      | noInput => simp at hg
      | selected k => simp at hg
  · intro fs opener root key term script fuel v hkey hff
    rw [booksRun]
    simp only [hkey]
    simpa using hff

/-- Witness for the amended C7 theorem: one invalid input, then an
    interrupt. -/
theorem interrupt_uncaught_propagates_inst :
    (∀ i ∈ ["x".data], ¬i = "q".data
      ∧ lookupAL i ([] : List (Str × NamePath)) = none)
    ∧ get_key [] (["x".data].map .line ++ .interrupt :: []) = (.interrupted, 2, []) := by
  have h := interrupt_uncaught_propagates [] ["x".data] [] (by decide)
  exact ⟨by decide, h.1⟩
